import Mathlib

/-!
Verification of the streaming transcription session of `parakeet-cli`
(`src/main.rs`).  The streaming core (stdin mode of `main`) is embedded
shallowly: bytes are `Fin 256`, audio samples are exact rationals
(every value `i16 / 32768` is exactly representable, so `ℚ` is a
faithful model of the `f32` arithmetic used), the external transcriber
(`model.transcribe_samples`, an external library capability) is an
oracle indexed by call number, and wall-clock durations (`Instant`)
are parameters.  Stdin is a list of read results; end of the list is
end-of-input (a zero-length read).
-/

/-- `MIN_SAMPLES_FOR_TRANSCRIPTION` from the source: minimum audio
(1 s at 16 kHz) before the first transcription. -/
def MIN_SAMPLES_FOR_TRANSCRIPTION : ℕ := 16000

/-- `CHUNK_INTERVAL_SAMPLES` from the source: new audio (0.5 s at
16 kHz) between partial results. -/
def CHUNK_INTERVAL_SAMPLES : ℕ := 8000

/-- `MAX_BUFFER_SAMPLES` from the source: maximum buffer size,
180 s at 16 kHz. -/
def MAX_BUFFER_SAMPLES : ℕ := 16000 * 180

/-- `TimedTokenOut` from the source: one word-level span.  The `end`
field is named `stop` because `end` is a Lean keyword. -/
structure TimedTokenOut where
  word : String
  start : ℚ
  stop : ℚ
deriving DecidableEq

/-- `TranscriptEvent` from the source.  `Option.none` models a field
skipped by `skip_serializing_if = "Option::is_none"`. -/
structure TranscriptEvent where
  text : String
  is_final : Bool
  duration_secs : Option ℚ
  audio_duration_secs : Option ℚ
  timestamps : Option (List TimedTokenOut)
deriving DecidableEq

/-- A successful result of the external transcriber: the `text` and
`tokens` fields of `parakeet_rs`' transcription result that the CLI
reads. -/
structure TransOk where
  text : String
  tokens : List TimedTokenOut
deriving DecidableEq

/-- The external transcriber as an oracle: outcome of the n-th
`transcribe_samples` call of the session (`none` = the call fails).
The session is deterministic, so indexing outcomes by call number
covers every possible behaviour of the stateless external engine. -/
abbrev Transcriber : Type := ℕ → Option TransOk

/-- `i16::from_le_bytes([b0, b1])` from the source: the signed 16-bit
value of two little-endian bytes. -/
def i16_from_le_bytes (b0 b1 : Fin 256) : ℤ :=
  let v : ℕ := b0.val + 256 * b1.val
  if v < 32768 then (v : ℤ) else (v : ℤ) - 65536

/-- Audio Ingest (source lines 169-175): `chunks_exact(2)` over the
bytes read, each pair decoded as little-endian `i16` and divided by
32768.0; a trailing odd byte is dropped by `chunks_exact`. -/
def decodeChunk : List (Fin 256) → List ℚ
  | [] => []
  | [_] => []
  | b0 :: b1 :: rest => ((i16_from_le_bytes b0 b1 : ℚ) / 32768) :: decodeChunk rest

/-- Mutable state of the streaming loop in `main`: `all_audio` (named
`buffer` here), `samples_since_last_transcription` (named
`samples_since_last`), `last_text`, plus `calls`, the number of
transcriber calls issued so far (the index into the oracle). -/
structure SessState where
  buffer : List ℚ
  samples_since_last : ℕ
  last_text : String
  calls : ℕ
deriving DecidableEq

/-- Initial session state: empty buffer, zero counters, empty
last-known-good text. -/
def initState : SessState :=
  { buffer := [], samples_since_last := 0, last_text := "", calls := 0 }

/-- Buffer ceiling enforcement (source lines 181-188): when the buffer
exceeds `MAX_BUFFER_SAMPLES`, `drain(..excess)` removes the oldest
`excess` samples from the front. -/
def trimBuf (l : List ℚ) : List ℚ :=
  if l.length > MAX_BUFFER_SAMPLES then l.drop (l.length - MAX_BUFFER_SAMPLES) else l

/-- One iteration of the streaming loop body for a successful read of
`bytes` (source lines 168-222): decode, append, trim, and — when at
least `CHUNK_INTERVAL_SAMPLES` are pending and the buffer holds at
least `MIN_SAMPLES_FOR_TRANSCRIPTION` — reset the pending counter and
call the transcriber; on success record `last_text` and emit a partial
event, on failure emit nothing and continue. -/
def ingestStep (trans : Transcriber) (st : SessState) (bytes : List (Fin 256)) :
    SessState × List TranscriptEvent :=
  let samples := decodeChunk bytes
  let pending := st.samples_since_last + samples.length
  let buf := trimBuf (st.buffer ++ samples)
  if pending ≥ CHUNK_INTERVAL_SAMPLES ∧ buf.length ≥ MIN_SAMPLES_FOR_TRANSCRIPTION then
    match trans st.calls with
    | some r =>
        ({ buffer := buf, samples_since_last := 0, last_text := r.text,
           calls := st.calls + 1 },
         [{ text := r.text, is_final := false, duration_secs := none,
            audio_duration_secs := some ((buf.length : ℚ) / 16000), timestamps := none }])
    | none =>
        ({ buffer := buf, samples_since_last := 0, last_text := st.last_text,
           calls := st.calls + 1 }, [])
  else
    ({ buffer := buf, samples_since_last := pending, last_text := st.last_text,
       calls := st.calls }, [])

/-- One outcome of `handle.read(&mut buf)`: a successful read of the
given bytes (a zero-length read is end-of-input), an
`ErrorKind::Interrupted` error, or any other (fatal) error. -/
inductive ReadResult where
  | chunk (bytes : List (Fin 256))
  | interrupted
  | fatal
deriving DecidableEq

/-- The streaming read loop (source lines 160-223) over a list of read
outcomes; the list running out is also end-of-input.  Returns the
partial events emitted in order and `some` final state on end-of-input,
or `none` when a fatal read error aborts the session (`return Err`). -/
def runReads (trans : Transcriber) :
    List ReadResult → SessState → List TranscriptEvent × Option SessState
  | [], st => ([], some st)
  | ReadResult.chunk bytes :: rs, st =>
      if bytes.isEmpty then ([], some st)
      else
        let p := ingestStep trans st bytes
        let q := runReads trans rs p.1
        (p.2 ++ q.1, q.2)
  | ReadResult.interrupted :: rs, st => runReads trans rs st
  | ReadResult.fatal :: _, _ => ([], none)

/-- Finalization after end-of-input (source lines 226-291): empty
buffer emits the empty terminal event; otherwise one more transcriber
call with sentence timestamps; on success a full terminal event
(`elapsed` models the wall-clock duration of the call), on failure the
last-known-good fallback event, or nothing if `last_text` is empty. -/
def finalizeEvents (trans : Transcriber) (elapsed : ℚ) (st : SessState) :
    List TranscriptEvent :=
  if st.buffer.isEmpty then
    [{ text := "", is_final := true, duration_secs := some 0,
       audio_duration_secs := some 0, timestamps := none }]
  else
    match trans st.calls with
    | some r =>
        [{ text := r.text, is_final := true, duration_secs := some elapsed,
           audio_duration_secs := some ((st.buffer.length : ℚ) / 16000),
           timestamps := if r.tokens.isEmpty then none else some r.tokens }]
    | none =>
        if st.last_text = "" then []
        else
          [{ text := st.last_text, is_final := true, duration_secs := none,
             audio_duration_secs := none, timestamps := none }]

/-- The "ready" event emitted before the read loop (source lines
148-158). -/
def readyEvent : TranscriptEvent :=
  { text := "", is_final := false, duration_secs := none,
    audio_duration_secs := some 0, timestamps := none }

/-- The whole streaming session (stdin branch of `main`): ready event,
then the loop's partial events, then — unless a fatal read error
aborted the loop — the finalization events. -/
def runSession (trans : Transcriber) (elapsed : ℚ) (reads : List ReadResult) :
    List TranscriptEvent :=
  let p := runReads trans reads initState
  readyEvent ::
    (p.1 ++ (match p.2 with
      | some st => finalizeEvents trans elapsed st
      | none => []))

/-- `emit_event` (source lines 81-91), as the line it writes to stdout:
in "text" format just the event's text and a newline; otherwise the
JSON rendering (the external `serde_json` serializer, a parameter
here) and a newline. -/
def emit_event_line (jsonOf : TranscriptEvent → String) (event : TranscriptEvent)
    (format : String) : String :=
  if format = "text" then event.text ++ "\n" else jsonOf event ++ "\n"

/-- The audio durations carried by the non-final events of a list, in
emission order (the ready event contributes `0`, each partial event its
`audio_duration_secs`; terminal events contribute nothing). -/
def nonFinalDurations (evs : List TranscriptEvent) : List ℚ :=
  evs.filterMap (fun ev => if ev.is_final then none else ev.audio_duration_secs)

/-! ### Basic facts about Audio Ingest -/

theorem decodeChunk_length : ∀ bs : List (Fin 256), (decodeChunk bs).length = bs.length / 2
  | [] => rfl
  | [_] => by simp [decodeChunk]
  | _ :: _ :: rest => by
      simp only [decodeChunk, List.length_cons, decodeChunk_length rest]
      omega

theorem i16_from_le_bytes_bounds (b0 b1 : Fin 256) :
    -32768 ≤ i16_from_le_bytes b0 b1 ∧ i16_from_le_bytes b0 b1 ≤ 32767 := by
  have h0 := b0.isLt
  have h1 := b1.isLt
  unfold i16_from_le_bytes
  dsimp only
  split <;> omega

theorem decodeChunk_mem_range : ∀ (bs : List (Fin 256)) (x : ℚ),
    x ∈ decodeChunk bs → -1 ≤ x ∧ x ≤ 1
  | b0 :: b1 :: rest, x, h => by
      rcases List.mem_cons.mp h with h | h
      · subst h
        obtain ⟨hlo, hhi⟩ := i16_from_le_bytes_bounds b0 b1
        constructor
        · rw [le_div_iff₀ (by norm_num : (0:ℚ) < 32768)]
          have : ((-32768 : ℤ) : ℚ) ≤ ((i16_from_le_bytes b0 b1 : ℤ) : ℚ) := by
            exact_mod_cast hlo
          push_cast at this ⊢
          linarith
        · rw [div_le_one (by norm_num : (0:ℚ) < 32768)]
          have : ((i16_from_le_bytes b0 b1 : ℤ) : ℚ) ≤ ((32767 : ℤ) : ℚ) := by
            exact_mod_cast hhi
          push_cast at this ⊢
          linarith
      · exact decodeChunk_mem_range rest x h
  | [], x, h => by simp [decodeChunk] at h
  | [_], x, h => by simp [decodeChunk] at h

theorem decodeChunk_getD : ∀ (bs : List (Fin 256)) (i : ℕ), i < bs.length / 2 →
    (decodeChunk bs).getD i 0 =
      (i16_from_le_bytes (bs.getD (2 * i) 0) (bs.getD (2 * i + 1) 0) : ℚ) / 32768
  | [], i, h => by
      simp only [List.length_nil] at h
      omega
  | [_], i, h => by
      simp only [List.length_cons, List.length_nil] at h
      omega
  | b0 :: b1 :: rest, 0, _ => by
      simp [decodeChunk]
  | b0 :: b1 :: rest, i + 1, h => by
      have hlt : i < rest.length / 2 := by
        simp only [List.length_cons] at h
        omega
      have ih := decodeChunk_getD rest i hlt
      have e1 : 2 * (i + 1) = 2 * i + 1 + 1 := by ring
      have e2 : 2 * (i + 1) + 1 = 2 * i + 1 + 1 + 1 := by ring
      simp only [decodeChunk, List.getD_cons_succ, e1, e2, ih]

/-! ### Buffer ceiling -/

theorem trimBuf_length (l : List ℚ) :
    (trimBuf l).length = min l.length MAX_BUFFER_SAMPLES := by
  unfold trimBuf
  split <;> simp [List.length_drop] <;> omega

theorem ingestStep_buffer (trans : Transcriber) (st : SessState) (bytes : List (Fin 256)) :
    ((ingestStep trans st bytes).1).buffer = trimBuf (st.buffer ++ decodeChunk bytes) := by
  unfold ingestStep
  dsimp only
  split
  · cases htr : trans st.calls <;> simp [htr]
  · rfl

/-- C2: after every ingest step the sample buffer holds at most
`MAX_BUFFER_SAMPLES` (2,880,000) samples, and whenever appending the
decoded chunk would push the length past that ceiling, the length is
exactly `MAX_BUFFER_SAMPLES` right after the eviction. -/
theorem c2_buffer_ceiling (trans : Transcriber) (st : SessState) (bytes : List (Fin 256)) :
    ((ingestStep trans st bytes).1).buffer.length ≤ MAX_BUFFER_SAMPLES ∧
    (st.buffer.length + (decodeChunk bytes).length > MAX_BUFFER_SAMPLES →
      ((ingestStep trans st bytes).1).buffer.length = MAX_BUFFER_SAMPLES) := by
  rw [ingestStep_buffer, trimBuf_length, List.length_append]
  omega

/-- Witness for C2: a buffer already at the ceiling plus one freshly
decoded sample is trimmed back to exactly the ceiling. -/
theorem c2_buffer_ceiling_witness :
    ((⟨List.replicate MAX_BUFFER_SAMPLES 0, 0, "", 0⟩ : SessState)).buffer.length
        + (decodeChunk [0, 0]).length > MAX_BUFFER_SAMPLES ∧
    ((ingestStep (fun _ => none)
        (⟨List.replicate MAX_BUFFER_SAMPLES 0, 0, "", 0⟩ : SessState)
        [0, 0]).1).buffer.length = MAX_BUFFER_SAMPLES := by
  have hpre :
      ((⟨List.replicate MAX_BUFFER_SAMPLES 0, 0, "", 0⟩ : SessState)).buffer.length
        + (decodeChunk [0, 0]).length > MAX_BUFFER_SAMPLES := by
    have hb : ((⟨List.replicate MAX_BUFFER_SAMPLES 0, 0, "", 0⟩ : SessState)).buffer
        = List.replicate MAX_BUFFER_SAMPLES 0 := rfl
    have hd : (decodeChunk [0, 0]).length = 1 := rfl
    rw [hb, List.length_replicate, hd]
    omega
  exact ⟨hpre, (c2_buffer_ceiling _ _ _).2 hpre⟩

/-! ### Audio Ingest claim -/

/-- C4: Audio Ingest is a pure total function; it produces exactly
`⌊length/2⌋` samples, the `i`-th sample is the little-endian signed
16-bit value of bytes `2i, 2i+1` divided by 32768, hence every sample
lies in `[-1, 1]`, and a trailing odd byte contributes nothing. -/
theorem c4_decode_properties (bytes : List (Fin 256)) :
    (decodeChunk bytes).length = bytes.length / 2 ∧
    (∀ i : ℕ, i < bytes.length / 2 →
      (decodeChunk bytes).getD i 0 =
        (i16_from_le_bytes (bytes.getD (2 * i) 0) (bytes.getD (2 * i + 1) 0) : ℚ) / 32768) ∧
    (∀ x ∈ decodeChunk bytes, -1 ≤ x ∧ x ≤ 1) :=
  ⟨decodeChunk_length bytes, fun i hi => decodeChunk_getD bytes i hi,
   fun x hx => decodeChunk_mem_range bytes x hx⟩

/-- Witness for C4 on the bytes `[52, 18, 255]`: one sample decoded
(the trailing byte 255 dropped), with the stated value and range. -/
theorem c4_decode_properties_witness :
    (decodeChunk [(52 : Fin 256), 18, 255]).length = [(52 : Fin 256), 18, 255].length / 2 ∧
    (decodeChunk [(52 : Fin 256), 18, 255]).getD 0 0 =
      (i16_from_le_bytes ([(52 : Fin 256), 18, 255].getD (2 * 0) 0)
        ([(52 : Fin 256), 18, 255].getD (2 * 0 + 1) 0) : ℚ) / 32768 ∧
    (-1 ≤ (i16_from_le_bytes 52 18 : ℚ) / 32768 ∧ (i16_from_le_bytes 52 18 : ℚ) / 32768 ≤ 1) := by
  have h := c4_decode_properties [52, 18, 255]
  refine ⟨h.1, h.2.1 0 (by decide), h.2.2 _ ?_⟩
  simp [decodeChunk]

/-! ### The three branches of an ingest step -/

theorem ingestStep_success (trans : Transcriber) (st : SessState) (bytes : List (Fin 256))
    (r : TransOk)
    (htrig : st.samples_since_last + (decodeChunk bytes).length ≥ CHUNK_INTERVAL_SAMPLES)
    (hmin : (trimBuf (st.buffer ++ decodeChunk bytes)).length ≥ MIN_SAMPLES_FOR_TRANSCRIPTION)
    (hok : trans st.calls = some r) :
    ingestStep trans st bytes =
      (⟨trimBuf (st.buffer ++ decodeChunk bytes), 0, r.text, st.calls + 1⟩,
       [⟨r.text, false, none,
         some (((trimBuf (st.buffer ++ decodeChunk bytes)).length : ℚ) / 16000), none⟩]) := by
  unfold ingestStep
  dsimp only
  rw [if_pos ⟨htrig, hmin⟩, hok]

theorem ingestStep_fail (trans : Transcriber) (st : SessState) (bytes : List (Fin 256))
    (htrig : st.samples_since_last + (decodeChunk bytes).length ≥ CHUNK_INTERVAL_SAMPLES)
    (hmin : (trimBuf (st.buffer ++ decodeChunk bytes)).length ≥ MIN_SAMPLES_FOR_TRANSCRIPTION)
    (hfail : trans st.calls = none) :
    ingestStep trans st bytes =
      (⟨trimBuf (st.buffer ++ decodeChunk bytes), 0, st.last_text, st.calls + 1⟩, []) := by
  unfold ingestStep
  dsimp only
  rw [if_pos ⟨htrig, hmin⟩, hfail]

theorem ingestStep_no_trigger (trans : Transcriber) (st : SessState) (bytes : List (Fin 256))
    (hno : ¬ (st.samples_since_last + (decodeChunk bytes).length ≥ CHUNK_INTERVAL_SAMPLES ∧
      (trimBuf (st.buffer ++ decodeChunk bytes)).length ≥ MIN_SAMPLES_FOR_TRANSCRIPTION)) :
    ingestStep trans st bytes =
      (⟨trimBuf (st.buffer ++ decodeChunk bytes),
        st.samples_since_last + (decodeChunk bytes).length, st.last_text, st.calls⟩, []) := by
  unfold ingestStep
  dsimp only
  rw [if_neg hno]

/-! ### The cadence guard claim -/

/-- C3: a partial event is emitted at a tick only when the buffer at
that tick holds at least `MIN_SAMPLES_FOR_TRANSCRIPTION` (16,000)
samples and at least `CHUNK_INTERVAL_SAMPLES` (8,000) samples are
pending since the previous trigger (or session start), and the pending
counter is reset to zero whenever that trigger fires. -/
theorem c3_trigger_guard (trans : Transcriber) (st : SessState) (bytes : List (Fin 256)) :
    ((ingestStep trans st bytes).2 ≠ [] →
      st.samples_since_last + (decodeChunk bytes).length ≥ CHUNK_INTERVAL_SAMPLES ∧
      (trimBuf (st.buffer ++ decodeChunk bytes)).length ≥ MIN_SAMPLES_FOR_TRANSCRIPTION) ∧
    (st.samples_since_last + (decodeChunk bytes).length ≥ CHUNK_INTERVAL_SAMPLES ∧
      (trimBuf (st.buffer ++ decodeChunk bytes)).length ≥ MIN_SAMPLES_FOR_TRANSCRIPTION →
      ((ingestStep trans st bytes).1).samples_since_last = 0) := by
  by_cases hg : st.samples_since_last + (decodeChunk bytes).length ≥ CHUNK_INTERVAL_SAMPLES ∧
      (trimBuf (st.buffer ++ decodeChunk bytes)).length ≥ MIN_SAMPLES_FOR_TRANSCRIPTION
  · refine ⟨fun _ => hg, fun _ => ?_⟩
    cases hok : trans st.calls with
    | none => rw [ingestStep_fail trans st bytes hg.1 hg.2 hok]
    | some r => rw [ingestStep_success trans st bytes r hg.1 hg.2 hok]
  · rw [ingestStep_no_trigger trans st bytes hg]
    exact ⟨fun hne => absurd rfl hne, fun h => absurd h hg⟩

/-- Witness for C3: with a 1-second buffer and 8,000 pending samples
the trigger fires, an event is emitted, and the pending counter
resets. -/
theorem c3_trigger_guard_witness :
    ((⟨List.replicate 16000 0, 8000, "", 0⟩ : SessState).samples_since_last
        + (decodeChunk []).length ≥ CHUNK_INTERVAL_SAMPLES ∧
      (trimBuf ((⟨List.replicate 16000 0, 8000, "", 0⟩ : SessState).buffer
        ++ decodeChunk [])).length ≥ MIN_SAMPLES_FOR_TRANSCRIPTION) ∧
    (ingestStep (fun _ => some ⟨"hi", []⟩)
        (⟨List.replicate 16000 0, 8000, "", 0⟩ : SessState) []).2 ≠ [] ∧
    ((ingestStep (fun _ => some ⟨"hi", []⟩)
        (⟨List.replicate 16000 0, 8000, "", 0⟩ : SessState) []).1).samples_since_last = 0 := by
  have e3 : ((⟨List.replicate 16000 0, 8000, "", 0⟩ : SessState)).buffer
      = List.replicate 16000 0 := rfl
  have e4 : decodeChunk ([] : List (Fin 256)) = [] := rfl
  have h1 : ((⟨List.replicate 16000 0, 8000, "", 0⟩ : SessState)).samples_since_last
      + (decodeChunk ([] : List (Fin 256))).length ≥ CHUNK_INTERVAL_SAMPLES := by
    rw [e4]
    decide
  have h2 : (trimBuf ((⟨List.replicate 16000 0, 8000, "", 0⟩ : SessState).buffer
      ++ decodeChunk [])).length ≥ MIN_SAMPLES_FOR_TRANSCRIPTION := by
    rw [e3, e4, List.append_nil, trimBuf_length, List.length_replicate]
    decide
  have hne : (ingestStep (fun _ => some ⟨"hi", []⟩)
      (⟨List.replicate 16000 0, 8000, "", 0⟩ : SessState) []).2 ≠ [] := by
    rw [ingestStep_success _ _ _ ⟨"hi", []⟩ h1 h2 rfl]
    exact List.cons_ne_nil _ _
  exact ⟨⟨h1, h2⟩, hne, (c3_trigger_guard _ _ _).2 ⟨h1, h2⟩⟩

/-! ### The recoverable partial-failure claim -/

/-- C7: when a triggered partial recognition call fails, no event is
emitted for that tick and the session state equals the state just
before the call was issued: the appended-and-trimmed buffer, a pending
counter already reset to zero, and an unchanged last-known-good
text. -/
theorem c7_recoverable_failure (trans : Transcriber) (st : SessState) (bytes : List (Fin 256))
    (htrig : st.samples_since_last + (decodeChunk bytes).length ≥ CHUNK_INTERVAL_SAMPLES)
    (hmin : (trimBuf (st.buffer ++ decodeChunk bytes)).length ≥ MIN_SAMPLES_FOR_TRANSCRIPTION)
    (hfail : trans st.calls = none) :
    (ingestStep trans st bytes).2 = [] ∧
    ((ingestStep trans st bytes).1).buffer = trimBuf (st.buffer ++ decodeChunk bytes) ∧
    ((ingestStep trans st bytes).1).samples_since_last = 0 ∧
    ((ingestStep trans st bytes).1).last_text = st.last_text := by
  rw [ingestStep_fail trans st bytes htrig hmin hfail]
  exact ⟨rfl, rfl, rfl, rfl⟩

/-- Witness for C7: a failing transcriber call on a 1-second buffer
with 8,000 pending samples leaves the stated post-state. -/
theorem c7_recoverable_failure_witness :
    ((⟨List.replicate 16000 0, 8000, "prev", 0⟩ : SessState).samples_since_last
        + (decodeChunk []).length ≥ CHUNK_INTERVAL_SAMPLES) ∧
    ((trimBuf ((⟨List.replicate 16000 0, 8000, "prev", 0⟩ : SessState).buffer
        ++ decodeChunk [])).length ≥ MIN_SAMPLES_FOR_TRANSCRIPTION) ∧
    ((ingestStep (fun _ => none) (⟨List.replicate 16000 0, 8000, "prev", 0⟩ : SessState) []).2 = [] ∧
      ((ingestStep (fun _ => none)
        (⟨List.replicate 16000 0, 8000, "prev", 0⟩ : SessState) []).1).samples_since_last = 0 ∧
      ((ingestStep (fun _ => none)
        (⟨List.replicate 16000 0, 8000, "prev", 0⟩ : SessState) []).1).last_text = "prev") := by
  have e3 : ((⟨List.replicate 16000 0, 8000, "prev", 0⟩ : SessState)).buffer
      = List.replicate 16000 0 := rfl
  have e4 : decodeChunk ([] : List (Fin 256)) = [] := rfl
  have h1 : ((⟨List.replicate 16000 0, 8000, "prev", 0⟩ : SessState)).samples_since_last
      + (decodeChunk ([] : List (Fin 256))).length ≥ CHUNK_INTERVAL_SAMPLES := by
    rw [e4]
    decide
  have h2 : (trimBuf ((⟨List.replicate 16000 0, 8000, "prev", 0⟩ : SessState).buffer
      ++ decodeChunk [])).length ≥ MIN_SAMPLES_FOR_TRANSCRIPTION := by
    rw [e3, e4, List.append_nil, trimBuf_length, List.length_replicate]
    decide
  have h := c7_recoverable_failure (fun _ => none)
    (⟨List.replicate 16000 0, 8000, "prev", 0⟩ : SessState) [] h1 h2 rfl
  exact ⟨h1, h2, h.1, h.2.2.1, h.2.2.2⟩

/-! ### Loop-level lemmas -/

theorem ingestStep_events_nonfinal (trans : Transcriber) (st : SessState)
    (bytes : List (Fin 256)) :
    ∀ ev ∈ (ingestStep trans st bytes).2, ev.is_final = false := by
  by_cases hg : st.samples_since_last + (decodeChunk bytes).length ≥ CHUNK_INTERVAL_SAMPLES ∧
      (trimBuf (st.buffer ++ decodeChunk bytes)).length ≥ MIN_SAMPLES_FOR_TRANSCRIPTION
  · cases hok : trans st.calls with
    | none =>
        rw [ingestStep_fail trans st bytes hg.1 hg.2 hok]
        intro ev h
        simp at h
    | some r =>
        rw [ingestStep_success trans st bytes r hg.1 hg.2 hok]
        intro ev h
        rw [List.mem_singleton] at h
        subst h
        rfl
  · rw [ingestStep_no_trigger trans st bytes hg]
    intro ev h
    simp at h

theorem ingestStep_no_event_last_text (trans : Transcriber) (st : SessState)
    (bytes : List (Fin 256)) (h : (ingestStep trans st bytes).2 = []) :
    ((ingestStep trans st bytes).1).last_text = st.last_text := by
  by_cases hg : st.samples_since_last + (decodeChunk bytes).length ≥ CHUNK_INTERVAL_SAMPLES ∧
      (trimBuf (st.buffer ++ decodeChunk bytes)).length ≥ MIN_SAMPLES_FOR_TRANSCRIPTION
  · cases hok : trans st.calls with
    | none => rw [ingestStep_fail trans st bytes hg.1 hg.2 hok]
    | some r =>
        rw [ingestStep_success trans st bytes r hg.1 hg.2 hok] at h
        simp at h
  · rw [ingestStep_no_trigger trans st bytes hg]

theorem runReads_nonfinal (trans : Transcriber) : ∀ (reads : List ReadResult) (st : SessState)
    (ev : TranscriptEvent), ev ∈ (runReads trans reads st).1 → ev.is_final = false
  | [], st, ev, h => by simp [runReads] at h
  | ReadResult.chunk bytes :: rs, st, ev, h => by
      by_cases hb : bytes.isEmpty
      · simp [runReads, hb] at h
      · simp only [runReads, if_neg hb] at h
        rcases List.mem_append.mp h with h | h
        · exact ingestStep_events_nonfinal trans st bytes ev h
        · exact runReads_nonfinal trans rs _ ev h
  | ReadResult.interrupted :: rs, st, ev, h => runReads_nonfinal trans rs st ev h
  | ReadResult.fatal :: rs, st, ev, h => by simp [runReads] at h

theorem runReads_interrupted_only (trans : Transcriber) : ∀ (reads : List ReadResult)
    (st : SessState), (∀ r ∈ reads, r = ReadResult.interrupted) →
    runReads trans reads st = ([], some st)
  | [], _, _ => rfl
  | r :: rs, st, h => by
      have hr := h r (List.mem_cons_self r rs)
      subst hr
      exact runReads_interrupted_only trans rs st
        (fun x hx => h x (List.mem_cons_of_mem _ hx))

theorem runReads_no_events_last_text (trans : Transcriber) : ∀ (reads : List ReadResult)
    (st st' : SessState), (runReads trans reads st).1 = [] →
    (runReads trans reads st).2 = some st' → st'.last_text = st.last_text
  | [], st, st', _, h2 => by
      simp only [runReads, Option.some.injEq] at h2
      rw [← h2]
  | ReadResult.chunk bytes :: rs, st, st', h1, h2 => by
      by_cases hb : bytes.isEmpty
      · simp only [runReads, if_pos hb, Option.some.injEq] at h2
        rw [← h2]
      · simp only [runReads, if_neg hb] at h1 h2
        have hsplit := List.append_eq_nil.mp h1
        have hstep := ingestStep_no_event_last_text trans st bytes hsplit.1
        rw [← hstep]
        exact runReads_no_events_last_text trans rs _ st' hsplit.2 h2
  | ReadResult.interrupted :: rs, st, st', h1, h2 =>
      runReads_no_events_last_text trans rs st st' h1 h2
  | ReadResult.fatal :: rs, st, st', h1, h2 => by simp [runReads] at h2

/-! ### Empty input (scenario A) -/

/-- C5 counterexample: on an immediately closed input stream the
session does not emit exactly the single terminal event the claim
describes — a ready event precedes it. -/
theorem c5_counterexample :
    runSession (fun _ => none) 0 [] ≠
      [⟨"", true, some 0, some 0, none⟩] := by decide

/-- C5 as amended: on an input stream that never delivers a byte, the
session emits exactly two events — the ready event, then a terminal
event with empty text, `is_final = true`, `duration_secs = 0`,
`audio_duration_secs = 0` and no timestamps. -/
theorem c5_amended_empty_input (trans : Transcriber) (e : ℚ) (reads : List ReadResult)
    (h : ∀ r ∈ reads, r = ReadResult.interrupted) :
    runSession trans e reads = [readyEvent, ⟨"", true, some 0, some 0, none⟩] := by
  have hrr := runReads_interrupted_only trans reads initState h
  simp only [runSession, hrr]
  rfl

/-- Witness for C5 (amended) on the concrete stream of one interrupted
read and then end-of-input. -/
theorem c5_amended_empty_input_witness :
    (∀ r ∈ [ReadResult.interrupted], r = ReadResult.interrupted) ∧
    runSession (fun _ => none) 0 [ReadResult.interrupted] =
      [readyEvent, ⟨"", true, some 0, some 0, none⟩] := by
  refine ⟨by decide, c5_amended_empty_input (fun _ => none) 0 [ReadResult.interrupted] ?_⟩
  decide

/-! ### Read-error handling -/

/-- C9: an interrupted read is retried at the same point — the loop
continues from the identical state, and the interruption is not
end-of-input — while any other read error aborts immediately: the loop
stops with `none`, and the session then consists of the ready event and
the partials emitted so far, with no terminal event. -/
theorem c9_read_errors (trans : Transcriber) (st : SessState) (rs : List ReadResult)
    (e : ℚ) (reads : List ReadResult) (evts : List TranscriptEvent) :
    runReads trans (ReadResult.interrupted :: rs) st = runReads trans rs st ∧
    runReads trans (ReadResult.fatal :: rs) st = ([], none) ∧
    (runReads trans reads initState = (evts, none) →
      runSession trans e reads = readyEvent :: evts ∧
      (readyEvent :: evts).countP (fun ev => ev.is_final) = 0) := by
  refine ⟨rfl, rfl, fun habort => ?_⟩
  have hs : runSession trans e reads = readyEvent :: evts := by
    simp only [runSession, habort]
    simp
  refine ⟨hs, ?_⟩
  rw [List.countP_cons_of_neg]
  · rw [List.countP_eq_zero]
    intro ev hev
    have : ev ∈ (runReads trans reads initState).1 := by rw [habort]; exact hev
    simp [runReads_nonfinal trans reads initState ev this]
  · simp [readyEvent]

/-- Witness for C9 on the concrete stream whose first read fails
fatally. -/
theorem c9_read_errors_witness :
    runReads (fun _ => none) [ReadResult.fatal] initState = ([], none) ∧
    runSession (fun _ => none) 0 [ReadResult.fatal] = [readyEvent] ∧
    ([readyEvent] : List TranscriptEvent).countP (fun ev => ev.is_final) = 0 := by
  have h := (c9_read_errors (fun _ => none) initState [] 0 [ReadResult.fatal] []).2.2 rfl
  exact ⟨rfl, h.1, h.2⟩

/-! ### Finalization -/

theorem finalizeEvents_fail (trans : Transcriber) (e : ℚ) (st : SessState)
    (hbuf : st.buffer ≠ []) (hfail : trans st.calls = none) :
    finalizeEvents trans e st =
      (if st.last_text = "" then []
       else [⟨st.last_text, true, none, none, none⟩]) := by
  unfold finalizeEvents
  rw [if_neg (by simpa using hbuf), hfail]

/-- C6: when the final recognition call fails on a non-empty buffer,
the session emits the fallback terminal event — the last-known-good
text with `is_final = true` and no duration, audio-duration or
timestamp fields — exactly when that text is non-empty, emits nothing
further when it is empty, and the text can only be non-empty if some
partial event was actually emitted (a partial call succeeded) earlier
in this run. -/
theorem c6_fallback_policy (trans : Transcriber) (e : ℚ) (reads : List ReadResult)
    (evts : List TranscriptEvent) (st : SessState)
    (hrun : runReads trans reads initState = (evts, some st))
    (hfail : trans st.calls = none)
    (hbuf : st.buffer ≠ []) :
    (st.last_text ≠ "" →
      finalizeEvents trans e st = [⟨st.last_text, true, none, none, none⟩]) ∧
    (st.last_text = "" → finalizeEvents trans e st = []) ∧
    (evts = [] → st.last_text = "") := by
  refine ⟨fun hlt => ?_, fun heq => ?_, fun hnil => ?_⟩
  · rw [finalizeEvents_fail trans e st hbuf hfail, if_neg hlt]
  · rw [finalizeEvents_fail trans e st hbuf hfail, if_pos heq]
  · have h1 : (runReads trans reads initState).1 = [] := by rw [hrun]; exact hnil
    have h2 : (runReads trans reads initState).2 = some st := by rw [hrun]
    rw [runReads_no_events_last_text trans reads initState st h1 h2]
    rfl

/-- Witness for C6 on a concrete run: one small chunk, a transcriber
that always fails, hence an empty last-known-good text and no fallback
event. -/
theorem c6_fallback_policy_witness :
    runReads (fun _ => none) [ReadResult.chunk [0, 0]] initState
      = ([], some ((ingestStep (fun _ => none) initState [0, 0]).1)) ∧
    ((ingestStep (fun _ => none) initState [0, 0]).1).buffer ≠ [] ∧
    finalizeEvents (fun _ => none) 0 ((ingestStep (fun _ => none) initState [0, 0]).1) = [] := by
  have hrun : runReads (fun _ => none) [ReadResult.chunk [0, 0]] initState
      = ([], some ((ingestStep (fun _ => none) initState [0, 0]).1)) := rfl
  have hbuf : ((ingestStep (fun _ => none) initState [0, 0]).1).buffer ≠ [] := by
    have hb : ((ingestStep (fun _ => none) initState [0, 0]).1).buffer
        = [(i16_from_le_bytes 0 0 : ℚ) / 32768] := rfl
    rw [hb]
    exact List.cons_ne_nil _ _
  exact ⟨hrun, hbuf,
    (c6_fallback_policy (fun _ => none) 0 _ [] _ hrun rfl hbuf).2.1 rfl⟩

theorem finalizeEvents_final (trans : Transcriber) (e : ℚ) (st : SessState) :
    ∀ f ∈ finalizeEvents trans e st, f.is_final = true := by
  intro f hf
  unfold finalizeEvents at hf
  split at hf
  · rw [List.mem_singleton] at hf
    subst hf
    rfl
  · split at hf
    · rw [List.mem_singleton] at hf
      subst hf
      rfl
    · split at hf
      · simp at hf
      · rw [List.mem_singleton] at hf
        subst hf
        rfl

theorem finalizeEvents_length_le_one (trans : Transcriber) (e : ℚ) (st : SessState) :
    (finalizeEvents trans e st).length ≤ 1 := by
  unfold finalizeEvents
  split
  · simp
  · split
    · simp
    · split <;> simp

theorem finalizeEvents_nonempty (trans : Transcriber) (e : ℚ) (st : SessState)
    (h : st.buffer = [] ∨ trans st.calls ≠ none ∨ st.last_text ≠ "") :
    ∃ f, finalizeEvents trans e st = [f] ∧ f.is_final = true := by
  by_cases hb : st.buffer.isEmpty
  · refine ⟨⟨"", true, some 0, some 0, none⟩, ?_, rfl⟩
    unfold finalizeEvents
    rw [if_pos hb]
  · cases htr : trans st.calls with
    | some r =>
        refine ⟨⟨r.text, true, some e, some ((st.buffer.length : ℚ) / 16000),
          if r.tokens.isEmpty then none else some r.tokens⟩, ?_, rfl⟩
        unfold finalizeEvents
        rw [if_neg hb, htr]
    | none =>
        have hlt : st.last_text ≠ "" := by
          rcases h with h | h | h
          · exact absurd (by simp [h]) hb
          · exact absurd htr h
          · exact h
        refine ⟨⟨st.last_text, true, none, none, none⟩, ?_, rfl⟩
        unfold finalizeEvents
        rw [if_neg hb, htr, if_neg hlt]

theorem session_final_count_le_one (trans : Transcriber) (e : ℚ) (reads : List ReadResult) :
    (runSession trans e reads).countP (fun ev => ev.is_final) ≤ 1 := by
  have hL : ((runReads trans reads initState).1).countP (fun ev => ev.is_final) = 0 := by
    rw [List.countP_eq_zero]
    intro a ha
    simp [runReads_nonfinal trans reads initState a ha]
  simp only [runSession]
  rw [List.countP_cons_of_neg _ _ (by simp [readyEvent]), List.countP_append, hL]
  cases hos : (runReads trans reads initState).2 with
  | none => simp
  | some st =>
      simpa using le_trans (List.countP_le_length _) (finalizeEvents_length_le_one trans e st)

/-! ### Terminal-event count (C1) -/

/-- C1 counterexample: a session in which the loop ends normally (no
fatal read error: the loop returns a state, not an abort) and yet no
terminal event is emitted, because the final recognition call fails
with an empty last-known-good text. -/
theorem c1_counterexample :
    (runReads (fun _ => none) [ReadResult.chunk [0, 0]] initState).2 ≠ none ∧
    (runSession (fun _ => none) 0 [ReadResult.chunk [0, 0]]).countP
      (fun ev => ev.is_final) = 0 := by
  constructor
  · intro hcon
    exact Option.noConfusion hcon
  · rfl

/-- C1 as amended: every session emits at most one terminal event, and
it emits exactly one whenever the read loop completes without a fatal
error and finalization produces an event — that is, unless the final
recognition call fails while the last-known-good text is empty (with a
non-empty buffer). -/
theorem c1_amended_terminal_count (trans : Transcriber) (e : ℚ) (reads : List ReadResult) :
    (runSession trans e reads).countP (fun ev => ev.is_final) ≤ 1 ∧
    (∀ (evts : List TranscriptEvent) (st : SessState),
      runReads trans reads initState = (evts, some st) →
      st.buffer = [] ∨ trans st.calls ≠ none ∨ st.last_text ≠ "" →
      (runSession trans e reads).countP (fun ev => ev.is_final) = 1) := by
  refine ⟨session_final_count_le_one trans e reads, fun evts st hrun hcond => ?_⟩
  obtain ⟨f, hf, hfin⟩ := finalizeEvents_nonempty trans e st hcond
  have hLe : evts.countP (fun ev => ev.is_final) = 0 := by
    rw [List.countP_eq_zero]
    intro a ha
    have ha' : a ∈ (runReads trans reads initState).1 := by rw [hrun]; exact ha
    simp [runReads_nonfinal trans reads initState a ha']
  simp only [runSession, hrun]
  rw [List.countP_cons_of_neg _ _ (by simp [readyEvent]), List.countP_append, hLe, hf]
  simp [hfin]

/-- Witness for C1 (amended) on the empty input stream with an
always-failing transcriber: the loop completes, the buffer is empty,
and exactly one terminal event is emitted. -/
theorem c1_amended_terminal_count_witness :
    runReads (fun _ => none) [] initState = ([], some initState) ∧
    initState.buffer = [] ∧
    (runSession (fun _ => none) 0 []).countP (fun ev => ev.is_final) = 1 :=
  ⟨rfl, rfl,
    (c1_amended_terminal_count (fun _ => none) 0 []).2 [] initState rfl (Or.inl rfl)⟩

/-! ### Event ordering (C8) -/

theorem nonFinalDurations_append (l l' : List TranscriptEvent) :
    nonFinalDurations (l ++ l') = nonFinalDurations l ++ nonFinalDurations l' :=
  List.filterMap_append l l' _

theorem ingestStep_durations (trans : Transcriber) (st : SessState) (bytes : List (Fin 256)) :
    nonFinalDurations (ingestStep trans st bytes).2 = [] ∨
    nonFinalDurations (ingestStep trans st bytes).2 =
      [((((ingestStep trans st bytes).1).buffer.length : ℚ)) / 16000] := by
  by_cases hg : st.samples_since_last + (decodeChunk bytes).length ≥ CHUNK_INTERVAL_SAMPLES ∧
      (trimBuf (st.buffer ++ decodeChunk bytes)).length ≥ MIN_SAMPLES_FOR_TRANSCRIPTION
  · cases hok : trans st.calls with
    | none =>
        left
        rw [ingestStep_fail trans st bytes hg.1 hg.2 hok]
        rfl
    | some r =>
        right
        rw [ingestStep_success trans st bytes r hg.1 hg.2 hok]
        rfl
  · left
    rw [ingestStep_no_trigger trans st bytes hg]
    rfl

theorem finalizeEvents_durations (trans : Transcriber) (e : ℚ) (st : SessState) :
    nonFinalDurations (finalizeEvents trans e st) = [] := by
  rw [nonFinalDurations, List.filterMap_eq_nil_iff]
  intro f hf
  rw [finalizeEvents_final trans e st f hf]
  rfl

theorem runReads_chain (trans : Transcriber) : ∀ (reads : List ReadResult) (st : SessState),
    st.buffer.length ≤ MAX_BUFFER_SAMPLES →
    (List.Chain' (· ≤ ·) (nonFinalDurations (runReads trans reads st).1) ∧
     (∀ d ∈ (nonFinalDurations (runReads trans reads st).1).head?,
        (st.buffer.length : ℚ) / 16000 ≤ d) ∧
     (∀ st', (runReads trans reads st).2 = some st' →
        st.buffer.length ≤ st'.buffer.length ∧ st'.buffer.length ≤ MAX_BUFFER_SAMPLES))
  | [], st, h => by
      refine ⟨by simp [runReads, nonFinalDurations], by simp [runReads, nonFinalDurations],
        fun st' h' => ?_⟩
      simp only [runReads, Option.some.injEq] at h'
      rw [← h']
      exact ⟨le_refl _, h⟩
  | ReadResult.chunk bytes :: rs, st, h => by
      by_cases hb : bytes.isEmpty
      · simp only [runReads, if_pos hb]
        refine ⟨by simp [nonFinalDurations], by simp [nonFinalDurations], fun st' h' => ?_⟩
        simp only [Option.some.injEq] at h'
        rw [← h']
        exact ⟨le_refl _, h⟩
      · simp only [runReads, if_neg hb]
        have hlen : ((ingestStep trans st bytes).1).buffer.length =
            min (st.buffer.length + (decodeChunk bytes).length) MAX_BUFFER_SAMPLES := by
          rw [ingestStep_buffer, trimBuf_length, List.length_append]
        have hle : st.buffer.length ≤ ((ingestStep trans st bytes).1).buffer.length := by
          rw [hlen]
          omega
        have hmax : ((ingestStep trans st bytes).1).buffer.length ≤ MAX_BUFFER_SAMPLES := by
          rw [hlen]
          omega
        obtain ⟨ihc, ihh, ihst⟩ := runReads_chain trans rs (ingestStep trans st bytes).1 hmax
        have hdiv : (st.buffer.length : ℚ) / 16000 ≤
            ((((ingestStep trans st bytes).1).buffer.length : ℚ)) / 16000 := by
          have hcast : (st.buffer.length : ℚ) ≤
              ((((ingestStep trans st bytes).1).buffer.length : ℚ)) := Nat.cast_le.mpr hle
          linarith
        have hstpart : ∀ st',
            (runReads trans rs (ingestStep trans st bytes).1).2 = some st' →
            st.buffer.length ≤ st'.buffer.length ∧
              st'.buffer.length ≤ MAX_BUFFER_SAMPLES := by
          intro st' h'
          obtain ⟨h1, h2⟩ := ihst st' h'
          exact ⟨le_trans hle h1, h2⟩
        rcases ingestStep_durations trans st bytes with hd | hd
        · rw [nonFinalDurations_append, hd, List.nil_append]
          exact ⟨ihc, fun d hd' => le_trans hdiv (ihh d hd'), hstpart⟩
        · rw [nonFinalDurations_append, hd, List.singleton_append]
          refine ⟨List.chain'_cons'.mpr ⟨ihh, ihc⟩, fun d hd' => ?_, hstpart⟩
          simp only [List.head?_cons, Option.mem_def, Option.some.injEq] at hd'
          rw [← hd']
          exact hdiv
  | ReadResult.interrupted :: rs, st, h => runReads_chain trans rs st h
  | ReadResult.fatal :: rs, st, h => by
      refine ⟨by simp [runReads, nonFinalDurations], by simp [runReads, nonFinalDurations],
        fun st' h' => ?_⟩
      simp [runReads] at h'

/-- C8 counterexample: with a transcriber that fails on every call and
an input of one small chunk, the loop ends normally and yet the session
emits no terminal event at all, so the event sequence is not "partials
followed by exactly one terminal event". -/
theorem c8_counterexample :
    ¬ ((runSession (fun _ => none) 0 [ReadResult.chunk [1, 0]]).countP
        (fun ev => ev.is_final) = 1) := by
  intro hcon
  have h0 : (runSession (fun _ => none) 0 [ReadResult.chunk [1, 0]]).countP
      (fun ev => ev.is_final) = 0 := rfl
  omega

/-- C8 as amended: in every session the audio durations of the
non-final (ready and partial) events are non-decreasing in emission
order, at most one terminal event is emitted, and every event other
than the last is non-final (so a terminal event, when present, is the
last event). -/
theorem c8_amended_ordering (trans : Transcriber) (e : ℚ) (reads : List ReadResult) :
    List.Chain' (· ≤ ·) (nonFinalDurations (runSession trans e reads)) ∧
    (runSession trans e reads).countP (fun ev => ev.is_final) ≤ 1 ∧
    (∀ ev ∈ (runSession trans e reads).dropLast, ev.is_final = false) := by
  obtain ⟨ihc, ihh, _⟩ := runReads_chain trans reads initState (by simp [initState])
  have hcons : ∀ (l : List TranscriptEvent),
      nonFinalDurations (readyEvent :: l) = 0 :: nonFinalDurations l := fun l => rfl
  refine ⟨?_, session_final_count_le_one trans e reads, ?_⟩
  · cases hos : (runReads trans reads initState).2 with
    | some st =>
        have hsess : runSession trans e reads =
            readyEvent :: ((runReads trans reads initState).1 ++ finalizeEvents trans e st) := by
          simp only [runSession, hos]
        rw [hsess, hcons, nonFinalDurations_append, finalizeEvents_durations, List.append_nil]
        rw [List.chain'_cons']
        refine ⟨fun b hb => ?_, ihc⟩
        have hib := ihh b hb
        simpa [initState] using hib
    | none =>
        have hsess : runSession trans e reads =
            readyEvent :: ((runReads trans reads initState).1 ++ []) := by
          simp only [runSession, hos]
        rw [hsess, List.append_nil, hcons, List.chain'_cons']
        refine ⟨fun b hb => ?_, ihc⟩
        have hib := ihh b hb
        simpa [initState] using hib
  · intro ev hev
    cases hos : (runReads trans reads initState).2 with
    | none =>
        have hsess : runSession trans e reads =
            readyEvent :: ((runReads trans reads initState).1 ++ []) := by
          simp only [runSession, hos]
        rw [hsess, List.append_nil] at hev
        have hev' := (List.dropLast_sublist _).subset hev
        rcases List.mem_cons.mp hev' with h | h
        · rw [h]
          rfl
        · exact runReads_nonfinal trans reads initState ev h
    | some st =>
        cases hF : finalizeEvents trans e st with
        | nil =>
            have hsess : runSession trans e reads =
                readyEvent :: ((runReads trans reads initState).1 ++ []) := by
              simp only [runSession, hos, hF]
            rw [hsess, List.append_nil] at hev
            have hev' := (List.dropLast_sublist _).subset hev
            rcases List.mem_cons.mp hev' with h | h
            · rw [h]
              rfl
            · exact runReads_nonfinal trans reads initState ev h
        | cons f tail =>
            have htail : tail = [] := by
              have hlen1 := finalizeEvents_length_le_one trans e st
              rw [hF] at hlen1
              simp only [List.length_cons] at hlen1
              have : tail.length = 0 := by omega
              exact List.length_eq_zero.mp this
            subst htail
            have hsess : runSession trans e reads =
                (readyEvent :: (runReads trans reads initState).1) ++ [f] := by
              simp only [runSession, hos, hF]
              rfl
            rw [hsess, List.dropLast_concat] at hev
            rcases List.mem_cons.mp hev with h | h
            · rw [h]
              rfl
            · exact runReads_nonfinal trans reads initState ev h

/-- Witness for C8 (amended): on the empty input stream the ready
event lies strictly before the last event, and it is non-final as the
theorem demands. -/
theorem c8_amended_ordering_witness :
    readyEvent ∈ (runSession (fun _ => none) 0 []).dropLast ∧
    readyEvent.is_final = false := by
  have hm : readyEvent ∈ (runSession (fun _ => none) 0 []).dropLast := by decide
  exact ⟨hm, (c8_amended_ordering (fun _ => none) 0 []).2.2 readyEvent hm⟩

/-! ### Text output mode (C10) -/

/-- C10: in "text" output format every event is rendered as exactly
its text field followed by a newline — the output depends on nothing
but the text, so `is_final`, durations and timestamps are dropped —
and in particular the ready event and the empty-input terminal event,
though distinct events, both render as the same blank line. -/
theorem c10_text_mode (jsonOf : TranscriptEvent → String) (ev ev₁ ev₂ : TranscriptEvent)
    (h : ev₁.text = ev₂.text) :
    emit_event_line jsonOf ev "text" = ev.text ++ "\n" ∧
    emit_event_line jsonOf ev₁ "text" = emit_event_line jsonOf ev₂ "text" ∧
    emit_event_line jsonOf readyEvent "text" = "\n" ∧
    emit_event_line jsonOf ⟨"", true, some 0, some 0, none⟩ "text" = "\n" ∧
    readyEvent ≠ (⟨"", true, some 0, some 0, none⟩ : TranscriptEvent) := by
  refine ⟨rfl, ?_, rfl, rfl, by decide⟩
  unfold emit_event_line
  rw [if_pos rfl, if_pos rfl, h]

/-- Witness for C10: the ready event and the empty-input terminal
event have equal text fields and render identically in text mode. -/
theorem c10_text_mode_witness :
    readyEvent.text = (⟨"", true, some 0, some 0, none⟩ : TranscriptEvent).text ∧
    emit_event_line (fun _ => "") readyEvent "text" =
      emit_event_line (fun _ => "") (⟨"", true, some 0, some 0, none⟩ : TranscriptEvent) "text" :=
  ⟨rfl, (c10_text_mode (fun _ => "") readyEvent readyEvent
    (⟨"", true, some 0, some 0, none⟩ : TranscriptEvent) rfl).2.1⟩
